import Mathlib

/-!
# Verification of the Hegdmax options-strategy screener

Shallow embedding of the analytical core of the repository:

* `OptionPosition.payoff`, `netPayoff` — `src/src/utils/optionCalculations.ts`
  (`OptionPosition.payoff`, `OptionStrategy.netPayoff`), identical in
  `src/optionStrategy.js` and `src/script.js`.
* `S_val`, `positiveMask`, `breakIdx`, `breakPoints`,
  `cumulativeNormalDistribution`, `zscore`, `pdf_S_T`,
  `numericalIntegration`, `probabilityOfProfit` —
  `OptionStrategy.probabilityOfProfit` and
  `OptionStrategy.cumulativeNormalDistribution`.
* `maxProfit`, `maxLoss`, `riskRewardRatio` (the
  `optionCalculations.ts` / `optionStrategy.js` variant) and
  `riskRewardRatioScript` (the `src/script.js` variant).
* `cell`, `tuples`, `analyzeMatrix` — the combination generator
  (the nested-offset enumeration of `src/script.js` lines 268–306, which is
  also the enumeration of `ExcelProcessor.analyzeMatrix`).
* `rankLE`, `rank` — the ranker (`riskRewardRatios.sort((b, a) => a.riskReward - b.riskReward)`),
  modelled as a stable sort (ECMAScript `Array.prototype.sort` is required to
  be stable; a comparator result of `NaN`, which arises for two `Infinity`
  ratios, is treated as `0`, i.e. a tie).

Modelling conventions: JavaScript numbers are modelled as exact rationals
(`ℚ`) wherever the source computes with finitely representable data, and as
real numbers (`ℝ`) where the source calls `Math.log` / `Math.exp` /
`Math.sqrt`.  The JavaScript value `Infinity` returned by `riskRewardRatio`
is modelled as `⊤ : WithTop ℚ`, and the float division `x / 0 = ±Infinity`
inside `Math.abs(maxProfit / maxLoss)` is modelled by `absDivJS`.
Spreadsheet cells are modelled as `Option ℚ` (`none` = a cell whose
`parseFloat` is `NaN`, including out-of-range accesses).  Strike cells,
whose parse result is never checked by the source, are read with default
`0`; no claim below depends on a malformed strike cell.
-/

set_option maxRecDepth 40000

namespace Hegdmax

inductive OptionKind where
  | call
  | put
deriving DecidableEq

inductive TradeAction where
  | buy
  | sell
deriving DecidableEq

/-- One option leg: `OptionPosition` from `optionCalculations.ts`. -/
structure OptionPosition where
  optionType : OptionKind
  action : TradeAction
  strike : ℚ
  premium : ℚ
  quantity : ℚ
deriving DecidableEq

/-- `OptionPosition.payoff(S_T)`: intrinsic value by kind, then signed by action. -/
def OptionPosition.payoff (p : OptionPosition) (S_T : ℚ) : ℚ :=
  let intrinsic : ℚ :=
    match p.optionType with
    | .call => max (S_T - p.strike) 0
    | .put => max (p.strike - S_T) 0
  match p.action with
  | .buy => p.quantity * (intrinsic - p.premium)
  | .sell => p.quantity * (p.premium - intrinsic)

/-- `OptionStrategy.netPayoff`: `positions.reduce((total, p) => total + p.payoff(S_T), 0)`. -/
def netPayoff (positions : List OptionPosition) (S_T : ℚ) : ℚ :=
  positions.foldl (fun total p => total + p.payoff S_T) 0

/-- The sampling grid `S_vals[i] = S_min + (S_max - S_min) * i / 999` with
`S_min = 0.01`, `S_max = S0 * 2`, `i = 0, …, 999`. -/
def S_val (S0 : ℚ) (i : ℕ) : ℚ :=
  1 / 100 + (S0 * 2 - 1 / 100) * i / 999

/-- `positiveMask[i] = payoffs[i] > 0`. -/
def positiveMask (ps : List OptionPosition) (S0 : ℚ) (i : ℕ) : Bool :=
  decide (0 < netPayoff ps (S_val S0 i))

/-- Indices kept by `S_vals.filter((_, i) => i > 0 && positiveMask[i] !== positiveMask[i-1])`. -/
def breakIdx (ps : List OptionPosition) (S0 : ℚ) : List ℕ :=
  (List.range 1000).filter fun i =>
    decide (0 < i) && (positiveMask ps S0 i != positiveMask ps S0 (i - 1))

/-- The break-point prices themselves. -/
def breakPoints (ps : List OptionPosition) (S0 : ℚ) : List ℚ :=
  (breakIdx ps S0).map (S_val S0)

/-- Abramowitz–Stegun constants from `cumulativeNormalDistribution`. -/
def a1 : ℝ := 0.254829592

def a2 : ℝ := -0.284496736

def a3 : ℝ := 1.421413741

def a4 : ℝ := -1.453152027

def a5 : ℝ := 1.061405429

def pAS : ℝ := 0.3275911

/-- The Horner polynomial `((((a5*t + a4)*t + a3)*t + a2)*t + a1)*t` of the
Abramowitz–Stegun approximation. -/
def polyAS (t : ℝ) : ℝ :=
  ((((a5 * t + a4) * t + a3) * t + a2) * t + a1) * t

/-- `OptionStrategy.cumulativeNormalDistribution(x)` (Abramowitz–Stegun 7.1.26). -/
noncomputable def cumulativeNormalDistribution (x : ℝ) : ℝ :=
  let sign : ℝ := if x < 0 then -1 else 1
  let x1 := |x| / Real.sqrt 2
  let t := 1 / (1 + pAS * x1)
  let y := 1 - polyAS t * Real.exp (-(x1 * x1))
  0.5 * (1 + sign * y)

/-- Standardized lognormal z-score of a boundary price `b`:
`(log(b / S0) - (r - 0.5 * sigma^2) * T) / (sigma * sqrt(T))`. -/
noncomputable def zscore (S0 T r sigma b : ℚ) : ℝ :=
  (Real.log ((b : ℝ) / (S0 : ℝ)) - ((r : ℝ) - 0.5 * (sigma : ℝ) ^ 2) * (T : ℝ)) /
    ((sigma : ℝ) * Real.sqrt (T : ℝ))

/-- The lognormal terminal-price density `pdf_S_T` from the fallback branch. -/
noncomputable def pdf_S_T (S0 T r sigma S : ℚ) : ℝ :=
  (1 / ((S : ℝ) * (sigma : ℝ) * Real.sqrt (2 * Real.pi * (T : ℝ)))) *
    Real.exp (-((Real.log ((S : ℝ) / (S0 : ℝ)) - ((r : ℝ) - 0.5 * (sigma : ℝ) ^ 2) * (T : ℝ)) ^ 2) /
      (2 * (sigma : ℝ) ^ 2 * (T : ℝ)))

/-- `payoffPositive(S) = netPayoff(S) > 0 ? 1.0 : 0.0`. -/
def payoffIndicator (ps : List OptionPosition) (S : ℚ) : ℝ :=
  if 0 < netPayoff ps S then 1 else 0

/-- The composite trapezoid fallback `numericalIntegration(S_min, S_max, 1000)`. -/
noncomputable def numericalIntegration (ps : List OptionPosition) (S0 T r sigma : ℚ) : ℝ :=
  let a : ℚ := 1 / 100
  let b : ℚ := S0 * 2
  let h : ℚ := (b - a) / 1000
  (0.5 * (payoffIndicator ps a * pdf_S_T S0 T r sigma a +
        payoffIndicator ps b * pdf_S_T S0 T r sigma b) +
      ∑ i ∈ Finset.Ico (1 : ℕ) 1000,
        payoffIndicator ps (a + (i : ℚ) * h) * pdf_S_T S0 T r sigma (a + (i : ℚ) * h)) *
    (h : ℝ)

/-- `OptionStrategy.probabilityOfProfit(S0, T, r, sigma)`. -/
noncomputable def probabilityOfProfit (ps : List OptionPosition) (S0 T r sigma : ℚ) : ℝ :=
  if ¬(List.range 1000).any (positiveMask ps S0) then 0
  else if (List.range 1000).all (positiveMask ps S0) then 1
  else
    match breakPoints ps S0 with
    | [b] =>
      if 0 < netPayoff ps (S_val S0 0) then cumulativeNormalDistribution (zscore S0 T r sigma b)
      else 1 - cumulativeNormalDistribution (zscore S0 T r sigma b)
    | [b1, b2] =>
      cumulativeNormalDistribution (zscore S0 T r sigma b2) -
        cumulativeNormalDistribution (zscore S0 T r sigma b1)
    | _ => numericalIntegration ps S0 T r sigma

/-- `maxProfit = Math.max(...payoffs)` over the 1000-point grid. -/
def maxProfit (ps : List OptionPosition) (S0 : ℚ) : ℚ :=
  ((List.range 1000).map fun i => netPayoff ps (S_val S0 i)).foldl max
    (netPayoff ps (S_val S0 0))

/-- `maxLoss = Math.min(...payoffs)` over the 1000-point grid. -/
def maxLoss (ps : List OptionPosition) (S0 : ℚ) : ℚ :=
  ((List.range 1000).map fun i => netPayoff ps (S_val S0 i)).foldl min
    (netPayoff ps (S_val S0 0))

/-- JavaScript `Math.abs(x / y)` for `x ≠ 0`: division by zero gives `±Infinity`. -/
def absDivJS (x y : ℚ) : WithTop ℚ :=
  if y = 0 then ⊤ else ((|x / y| : ℚ) : WithTop ℚ)

/-- `OptionStrategy.riskRewardRatio` as in `optionCalculations.ts` /
`optionStrategy.js`: `Math.abs(maxProfit / maxLoss)` after the
`maxProfit === 0` guard.  Only `S0` is actually used by the source body. -/
def riskRewardRatio (ps : List OptionPosition) (S0 T r sigma : ℚ) : WithTop ℚ :=
  if maxProfit ps S0 = 0 then (if maxLoss ps S0 < 0 then ⊤ else 0)
  else absDivJS (maxProfit ps S0) (maxLoss ps S0)

/-- `OptionStrategy.riskRewardRatio` as in `src/script.js`:
`Math.abs(maxLoss) / maxProfit` after the same guard. -/
def riskRewardRatioScript (ps : List OptionPosition) (S0 T r sigma : ℚ) : WithTop ℚ :=
  if maxProfit ps S0 = 0 then (if maxLoss ps S0 < 0 then ⊤ else 0)
  else ((|maxLoss ps S0| / maxProfit ps S0 : ℚ) : WithTop ℚ)

/-- A result record `{riskReward, prob, indices}` as pushed by the
combination generator; `indices` is `[i, j+i, k, l+k]`
(call-sell, call-buy, put-sell, put-buy). -/
structure ResultRec where
  riskReward : WithTop ℚ
  prob : ℝ
  indices : ℕ × ℕ × ℕ × ℕ

/-- Reading `transposedMatrix[row][col]`: out-of-range access and `NaN`
parses are both `none`. -/
def cell (m : List (List (Option ℚ))) (row col : ℕ) : Option ℚ :=
  (m.getD row []).getD col none

/-- The nested-offset enumeration of `(i, j, k, l)` with
`i, k ∈ [START, START + maxRows)`, `j + i < START + maxRows`,
`l + k < START + maxRows`, `START = 1`, in source loop order. -/
def tuples (maxRows : ℕ) : List (ℕ × ℕ × ℕ × ℕ) :=
  (List.range' 1 maxRows).flatMap fun i =>
    (List.range' 1 (maxRows - i)).flatMap fun j =>
      (List.range' 1 maxRows).flatMap fun k =>
        (List.range' 1 (maxRows - k)).map fun l => (i, j, k, l)

/-- `S0 = 23559.15` from the generator. -/
def S0c : ℚ := 2355915 / 100

/-- `T = 21 / 365` from the generator. -/
def Tc : ℚ := 21 / 365

/-- `r = 0.01` from the generator. -/
def rc : ℚ := 1 / 100

/-- `sigma = 0.122` from the generator. -/
def sigmac : ℚ := 122 / 1000

/-- `maxRows = Math.min(30, internalMatrix[0].length)`. -/
def maxRowsOf (m : List (List (Option ℚ))) : ℕ :=
  min 30 (m.getD 0 []).length

/-- One step of the combination generator: parse `callAsk = m[5][i]`,
`callBid = m[5][j+i]`, `putAsk = m[7][k]`, `putBid = m[7][l+k]`; if any is
`NaN` skip this tuple (`none`), otherwise build the 4 legs (strikes from
row 6) and emit a result record. -/
noncomputable def genRecord (m : List (List (Option ℚ))) (t : ℕ × ℕ × ℕ × ℕ) :
    Option ResultRec :=
  match t with
  | (i, j, k, l) =>
    match cell m 5 i, cell m 5 (j + i), cell m 7 k, cell m 7 (l + k) with
    | some callAsk, some callBid, some putAsk, some putBid =>
      let strikeAt : ℕ → ℚ := fun idx => (cell m 6 idx).getD 0
      let positions : List OptionPosition :=
        [⟨.call, .sell, strikeAt i, callBid, 1⟩,
          ⟨.call, .buy, strikeAt (j + i), callAsk, 1⟩,
          ⟨.put, .sell, strikeAt k, putBid, 1⟩,
          ⟨.put, .buy, strikeAt (l + k), putAsk, 1⟩]
      some ⟨riskRewardRatio positions S0c Tc rc sigmac,
        probabilityOfProfit positions S0c Tc rc sigmac,
        (i, j + i, k, l + k)⟩
    | _, _, _, _ => none

/-- The combination generator (`convertBtn` handler of `src/script.js`,
equally `ExcelProcessor.analyzeMatrix`): enumerate the nested-offset
4-tuples in loop order and collect the records of the tuples whose four
price cells all parse. -/
noncomputable def analyzeMatrix (m : List (List (Option ℚ))) : List ResultRec :=
  (tuples (maxRowsOf m)).filterMap (genRecord m)

/-- The sort comparator: ECMAScript keeps `x` no later than `y` whenever
`cmp(x, y) ≤ 0`; with `cmp = (b, a) => a.riskReward - b.riskReward` (and a
`NaN` comparator value for two `Infinity` ratios treated as `0`) this is
`y.riskReward ≤ x.riskReward` over `WithTop ℚ`. -/
def rankLE (x y : ResultRec) : Bool :=
  decide (y.riskReward ≤ x.riskReward)

/-- The ranker `riskRewardRatios.sort((b, a) => a.riskReward - b.riskReward)`,
modelled as a stable sort (ECMAScript `Array.prototype.sort` is stable)
producing a new sequence. -/
def rank (rs : List ResultRec) : List ResultRec :=
  rs.mergeSort rankLE

/-!
## Grid and branch lemmas
-/

theorem S_val_zero (S0 : ℚ) : S_val S0 0 = 1 / 100 := by
  simp [S_val]

theorem S_val_pos (S0 : ℚ) (h : 1 / 200 ≤ S0) (i : ℕ) : 0 < S_val S0 i := by
  unfold S_val
  have h1 : (0 : ℚ) ≤ (S0 * 2 - 1 / 100) * i := by
    have : (0 : ℚ) ≤ (i : ℚ) := Nat.cast_nonneg i
    nlinarith
  have h2 : (0 : ℚ) ≤ (S0 * 2 - 1 / 100) * i / 999 := by positivity
  linarith

theorem S_val_mono (S0 : ℚ) (h : 1 / 200 ≤ S0) {i j : ℕ} (hij : i ≤ j) :
    S_val S0 i ≤ S_val S0 j := by
  unfold S_val
  have h1 : (0 : ℚ) ≤ S0 * 2 - 1 / 100 := by linarith
  have h2 : (i : ℚ) ≤ (j : ℚ) := by exact_mod_cast hij
  have h3 : (S0 * 2 - 1 / 100) * i ≤ (S0 * 2 - 1 / 100) * j := by nlinarith
  have h4 : (S0 * 2 - 1 / 100) * i / 999 ≤ (S0 * 2 - 1 / 100) * j / 999 := by
    apply div_le_div_of_nonneg_right h3 ?_ |>.trans_eq ?_ <;> norm_num
  linarith

/-- A Boolean function that differs at `a ≤ b` differs somewhere between two
consecutive arguments in `(a, b]`. -/
theorem flip_exists (m : ℕ → Bool) :
    ∀ b a, a ≤ b → m a ≠ m b → ∃ x, a < x ∧ x ≤ b ∧ m x ≠ m (x - 1) := by
  intro b
  induction b with
  | zero =>
    intro a ha hne
    exact absurd (by rw [Nat.le_zero.mp ha]) hne
  | succ n ih =>
    intro a ha hne
    rcases Nat.lt_or_ge a (n + 1) with hlt | hge
    · by_cases hm : m n = m (n + 1)
      · obtain ⟨x, hx1, hx2, hx3⟩ := ih a (by omega) (fun h => hne (h.trans hm))
        exact ⟨x, hx1, by omega, hx3⟩
      · exact ⟨n + 1, by omega, le_refl _, by simpa using Ne.symm hm⟩
    · exact absurd (by rw [Nat.le_antisymm ha hge]) hne

theorem break_mem {ps : List OptionPosition} {S0 : ℚ} {i : ℕ}
    (hi : i ∈ breakIdx ps S0) :
    i < 1000 ∧ 0 < i ∧ positiveMask ps S0 i ≠ positiveMask ps S0 (i - 1) := by
  unfold breakIdx at hi
  rw [List.mem_filter] at hi
  obtain ⟨hmem, hp⟩ := hi
  simp only [Bool.and_eq_true, decide_eq_true_eq, bne_iff_ne, ne_eq] at hp
  exact ⟨List.mem_range.mp hmem, hp.1, hp.2⟩

theorem mem_break_of_flip {ps : List OptionPosition} {S0 : ℚ} {i : ℕ}
    (h1 : 0 < i) (h2 : i < 1000)
    (h3 : positiveMask ps S0 i ≠ positiveMask ps S0 (i - 1)) :
    i ∈ breakIdx ps S0 := by
  unfold breakIdx
  rw [List.mem_filter]
  refine ⟨List.mem_range.mpr h2, ?_⟩
  simp only [Bool.and_eq_true, decide_eq_true_eq, bne_iff_ne, ne_eq]
  exact ⟨h1, h3⟩

theorem any_all_of_break {ps : List OptionPosition} {S0 : ℚ} {i : ℕ}
    (hi : i ∈ breakIdx ps S0) :
    (List.range 1000).any (positiveMask ps S0) = true ∧
      (List.range 1000).all (positiveMask ps S0) = false := by
  obtain ⟨h1000, hipos, hne⟩ := break_mem hi
  constructor
  · rw [List.any_eq_true]
    cases hmask : positiveMask ps S0 i with
    | true => exact ⟨i, List.mem_range.mpr h1000, hmask⟩
    | false =>
      cases h2 : positiveMask ps S0 (i - 1) with
      | true => exact ⟨i - 1, List.mem_range.mpr (by omega), h2⟩
      | false => exact absurd (hmask.trans h2.symm) hne
  · cases hall : (List.range 1000).all (positiveMask ps S0) with
    | false => rfl
    | true =>
      rw [List.all_eq_true] at hall
      have ha := hall i (List.mem_range.mpr h1000)
      have hb := hall (i - 1) (List.mem_range.mpr (by omega))
      exact absurd (ha.trans hb.symm) hne

theorem breakIdx_nonempty_of_any_all {ps : List OptionPosition} {S0 : ℚ}
    (hany : (List.range 1000).any (positiveMask ps S0) = true)
    (hall : (List.range 1000).all (positiveMask ps S0) = false) :
    breakIdx ps S0 ≠ [] := by
  rw [List.any_eq_true] at hany
  obtain ⟨u, hu, hut⟩ := hany
  have hv : ∃ v ∈ List.range 1000, positiveMask ps S0 v = false := by
    by_contra hno
    push_neg at hno
    have hta : (List.range 1000).all (positiveMask ps S0) = true := by
      rw [List.all_eq_true]
      intro x hx
      cases hxx : positiveMask ps S0 x with
      | true => rfl
      | false => exact absurd hxx (hno x hx)
    rw [hta] at hall
    exact Bool.noConfusion hall
  obtain ⟨v, hv, hvf⟩ := hv
  have huv : positiveMask ps S0 u ≠ positiveMask ps S0 v := by
    rw [hut, hvf]
    exact fun h => Bool.noConfusion h
  have hu1000 := List.mem_range.mp hu
  have hv1000 := List.mem_range.mp hv
  rcases Nat.le_total u v with h | h
  · obtain ⟨x, hx1, hx2, hx3⟩ := flip_exists (positiveMask ps S0) v u h huv
    have : x ∈ breakIdx ps S0 := mem_break_of_flip (by omega) (by omega) hx3
    exact fun hnil => by simp [hnil] at this
  · obtain ⟨x, hx1, hx2, hx3⟩ := flip_exists (positiveMask ps S0) u v h (Ne.symm huv)
    have : x ∈ breakIdx ps S0 := mem_break_of_flip (by omega) (by omega) hx3
    exact fun hnil => by simp [hnil] at this

/-- The all-negative branch: payoff strictly positive nowhere on the grid. -/
theorem pop_none {ps : List OptionPosition} {S0 : ℚ} (T r sigma : ℚ)
    (h : ∀ i < 1000, netPayoff ps (S_val S0 i) ≤ 0) :
    probabilityOfProfit ps S0 T r sigma = 0 := by
  unfold probabilityOfProfit
  rw [if_pos]
  intro hany
  rw [List.any_eq_true] at hany
  obtain ⟨u, hu, hut⟩ := hany
  rw [positiveMask, decide_eq_true_eq] at hut
  exact absurd hut (not_lt.mpr (h u (List.mem_range.mp hu)))

/-- The all-positive branch: payoff strictly positive everywhere on the grid. -/
theorem pop_all {ps : List OptionPosition} {S0 : ℚ} (T r sigma : ℚ)
    (h : ∀ i < 1000, 0 < netPayoff ps (S_val S0 i)) :
    probabilityOfProfit ps S0 T r sigma = 1 := by
  unfold probabilityOfProfit
  rw [if_neg, if_pos]
  · rw [List.all_eq_true]
    intro x hx
    rw [positiveMask, decide_eq_true_eq]
    exact h x (List.mem_range.mp hx)
  · intro hnot
    apply hnot
    rw [List.any_eq_true]
    refine ⟨0, List.mem_range.mpr (by norm_num), ?_⟩
    rw [positiveMask, decide_eq_true_eq]
    exact h 0 (by norm_num)

/-- The single-boundary branch. -/
theorem pop_one_break {ps : List OptionPosition} {S0 : ℚ} (T r sigma : ℚ) {b : ℚ}
    (hb : breakPoints ps S0 = [b]) :
    probabilityOfProfit ps S0 T r sigma =
      if 0 < netPayoff ps (1 / 100) then cumulativeNormalDistribution (zscore S0 T r sigma b)
      else 1 - cumulativeNormalDistribution (zscore S0 T r sigma b) := by
  have hne : breakIdx ps S0 ≠ [] := by
    intro hnil
    rw [breakPoints, hnil] at hb
    simp at hb
  obtain ⟨i0, t, hl⟩ := List.exists_cons_of_ne_nil hne
  have hi0 : i0 ∈ breakIdx ps S0 := by rw [hl]; exact List.mem_cons_self i0 t
  obtain ⟨hany, hall⟩ := any_all_of_break hi0
  unfold probabilityOfProfit
  rw [if_neg (not_not_intro hany), if_neg (by simp [hall]), hb, S_val_zero]

/-- The two-boundary branch. -/
theorem pop_two_break {ps : List OptionPosition} {S0 : ℚ} (T r sigma : ℚ) {b1 b2 : ℚ}
    (hb : breakPoints ps S0 = [b1, b2]) :
    probabilityOfProfit ps S0 T r sigma =
      cumulativeNormalDistribution (zscore S0 T r sigma b2) -
        cumulativeNormalDistribution (zscore S0 T r sigma b1) := by
  have hne : breakIdx ps S0 ≠ [] := by
    intro hnil
    rw [breakPoints, hnil] at hb
    simp at hb
  obtain ⟨i0, t, hl⟩ := List.exists_cons_of_ne_nil hne
  have hi0 : i0 ∈ breakIdx ps S0 := by rw [hl]; exact List.mem_cons_self i0 t
  obtain ⟨hany, hall⟩ := any_all_of_break hi0
  unfold probabilityOfProfit
  rw [if_neg (not_not_intro hany), if_neg (by simp [hall]), hb]

/-- The numerical-integration fallback branch (three or more boundaries). -/
theorem pop_fallback {ps : List OptionPosition} {S0 : ℚ} (T r sigma : ℚ)
    {b1 b2 b3 : ℚ} {bs : List ℚ}
    (hb : breakPoints ps S0 = b1 :: b2 :: b3 :: bs) :
    probabilityOfProfit ps S0 T r sigma = numericalIntegration ps S0 T r sigma := by
  have hne : breakIdx ps S0 ≠ [] := by
    intro hnil
    rw [breakPoints, hnil] at hb
    simp at hb
  obtain ⟨i0, t, hl⟩ := List.exists_cons_of_ne_nil hne
  have hi0 : i0 ∈ breakIdx ps S0 := by rw [hl]; exact List.mem_cons_self i0 t
  obtain ⟨hany, hall⟩ := any_all_of_break hi0
  unfold probabilityOfProfit
  rw [if_neg (not_not_intro hany), if_neg (by simp [hall]), hb]

/-!
## Claim C1: leg payoff formula
-/

/-- Claim C1: for every position with kind `call` or `put` and action `buy` or
`sell`, and every terminal price, the payoff is
`quantity * (intrinsic - premium)` for `buy` and
`quantity * (premium - intrinsic)` for `sell`, with
`intrinsic = max(S_T - strike, 0)` for a call and `max(strike - S_T, 0)`
for a put. -/
theorem payoff_formula (strike premium quantity S_T : ℚ) :
    (OptionPosition.payoff ⟨.call, .buy, strike, premium, quantity⟩ S_T =
        quantity * (max (S_T - strike) 0 - premium)) ∧
      (OptionPosition.payoff ⟨.call, .sell, strike, premium, quantity⟩ S_T =
        quantity * (premium - max (S_T - strike) 0)) ∧
      (OptionPosition.payoff ⟨.put, .buy, strike, premium, quantity⟩ S_T =
        quantity * (max (strike - S_T) 0 - premium)) ∧
      (OptionPosition.payoff ⟨.put, .sell, strike, premium, quantity⟩ S_T =
        quantity * (premium - max (strike - S_T) 0)) :=
  ⟨rfl, rfl, rfl, rfl⟩

/-!
## Claims C2, C3, C4: the branches of `probabilityOfProfit`
-/

/-- Claim C2: when the sampled net payoff changes sign exactly once between
consecutive samples (a single boundary price `b`), `probabilityOfProfit`
returns `Phi(z)` if the net payoff at the lowest sampled price `0.01` is
strictly positive and `1 - Phi(z)` otherwise, with
`z = (ln(b/S0) - (r - 0.5*sigma^2)*T) / (sigma*sqrt(T))` and `Phi` the
Abramowitz–Stegun cumulative-normal approximation. -/
theorem probabilityOfProfit_one_boundary (ps : List OptionPosition) (S0 T r sigma b : ℚ)
    (hb : breakPoints ps S0 = [b]) :
    probabilityOfProfit ps S0 T r sigma =
      if 0 < netPayoff ps (1 / 100) then cumulativeNormalDistribution (zscore S0 T r sigma b)
      else 1 - cumulativeNormalDistribution (zscore S0 T r sigma b) :=
  pop_one_break T r sigma hb

/-- Claim C3: when the sampled net payoff changes sign exactly twice (two
boundary prices `b1, b2` in grid order), `probabilityOfProfit` returns
`Phi(z2) - Phi(z1)`, whatever the profitable region's topology is. -/
theorem probabilityOfProfit_two_boundary (ps : List OptionPosition) (S0 T r sigma b1 b2 : ℚ)
    (hb : breakPoints ps S0 = [b1, b2]) :
    probabilityOfProfit ps S0 T r sigma =
      cumulativeNormalDistribution (zscore S0 T r sigma b2) -
        cumulativeNormalDistribution (zscore S0 T r sigma b1) :=
  pop_two_break T r sigma hb

/-- Claim C4: `probabilityOfProfit` returns exactly `1.0` when the net payoff
is strictly positive at all 1000 sample prices, and exactly `0.0` when it is
strictly positive at none of them; both are returned values, not errors. -/
theorem probabilityOfProfit_degenerate (ps : List OptionPosition) (S0 T r sigma : ℚ) :
    ((∀ i < 1000, 0 < netPayoff ps (S_val S0 i)) →
        probabilityOfProfit ps S0 T r sigma = 1) ∧
      ((∀ i < 1000, netPayoff ps (S_val S0 i) ≤ 0) →
        probabilityOfProfit ps S0 T r sigma = 0) :=
  ⟨pop_all T r sigma, pop_none T r sigma⟩

/-!
### Witness strategies for C2, C3, C4
-/

/-- Witness strategy: one bought call, strike 1, premium 0. -/
def c2ps : List OptionPosition := [⟨.call, .buy, 1, 0, 1⟩]

theorem c2_net (S : ℚ) : netPayoff c2ps S = max (S - 1) 0 := by
  simp [netPayoff, c2ps, OptionPosition.payoff]

theorem c2_mask (i : ℕ) : positiveMask c2ps 1 i = decide (98901 < 199 * i) := by
  rw [positiveMask, decide_eq_decide, c2_net]
  rw [show S_val 1 i = (999 + 199 * (i : ℚ)) / 99900 by rw [S_val]; push_cast; ring]
  constructor
  · intro h
    rcases lt_max_iff.mp h with h2 | h2
    · have h3 : (98901 : ℚ) < 199 * (i : ℚ) := by nlinarith
      exact_mod_cast h3
    · exact absurd h2 (lt_irrefl 0)
  · intro h
    have h3 : (98901 : ℚ) < 199 * (i : ℚ) := by exact_mod_cast h
    exact lt_max_iff.mpr (Or.inl (by nlinarith))

theorem range_filter_beq (a : ℕ) : ∀ n : ℕ, a < n →
    (List.range n).filter (fun i => i == a) = [a] := by
  intro n
  induction n with
  | zero => omega
  | succ n ih =>
    intro h
    rw [List.range_succ, List.filter_append]
    rcases Nat.lt_or_ge a n with hlt | hge
    · rw [ih hlt]
      have hno : ((n : ℕ) == a) = false := by simp; omega
      simp [List.filter, hno]
    · have ha : a = n := by omega
      subst ha
      have h1 : (List.range a).filter (fun i => i == a) = [] := by
        rw [List.filter_eq_nil_iff]
        intro x hx
        have := List.mem_range.mp hx
        simp
        omega
      rw [h1]
      simp [List.filter]

theorem range_filter_beq_pair (a b : ℕ) (hab : a < b) : ∀ n : ℕ, b < n →
    (List.range n).filter (fun i => i == a || i == b) = [a, b] := by
  intro n
  induction n with
  | zero => omega
  | succ n ih =>
    intro h
    rw [List.range_succ, List.filter_append]
    rcases Nat.lt_or_ge b n with hlt | hge
    · rw [ih hlt]
      have hna : ((n : ℕ) == a) = false := by simp; omega
      have hnb : ((n : ℕ) == b) = false := by simp; omega
      simp [List.filter, hna, hnb]
    · have hb : b = n := by omega
      subst hb
      have h1 : (List.range b).filter (fun i => i == a || i == b) =
          (List.range b).filter (fun i => i == a) := by
        apply List.filter_congr
        intro x hx
        have := List.mem_range.mp hx
        have hxb : (x == b) = false := by simp; omega
        rw [hxb, Bool.or_false]
      rw [h1, range_filter_beq a b hab]
      simp [List.filter]

theorem c2_breakIdx : breakIdx c2ps 1 = [497] := by
  unfold breakIdx
  have hcongr : ∀ i ∈ List.range 1000,
      (decide (0 < i) && (positiveMask c2ps 1 i != positiveMask c2ps 1 (i - 1))) =
        (i == 497) := by
    intro i hi
    rw [c2_mask, c2_mask]
    rcases eq_or_ne i 497 with h | h
    · subst h; rfl
    · have h1 : (i == 497) = false := by simp [h]
      rw [h1]
      rcases Nat.eq_zero_or_pos i with hz | hp
      · subst hz; rfl
      · have h2 : decide (98901 < 199 * i) = decide (98901 < 199 * (i - 1)) := by
          rw [decide_eq_decide]; omega
        rw [h2, bne_self_eq_false, Bool.and_false]
  rw [List.filter_congr hcongr]
  exact range_filter_beq 497 1000 (by norm_num)

theorem c2_breakPoints : breakPoints c2ps 1 = [49951 / 49950] := by
  rw [breakPoints, c2_breakIdx, List.map_cons, List.map_nil]
  norm_num [S_val]

/-- Witness for C2: the single bought call flips sign once, at grid index 497;
the payoff at the lowest price is not positive, so the `1 - Phi(z)` branch is
taken. -/
theorem probabilityOfProfit_one_boundary_witness :
    breakPoints c2ps 1 = [49951 / 49950] ∧
      probabilityOfProfit c2ps 1 1 0 1 =
        1 - cumulativeNormalDistribution (zscore 1 1 0 1 (49951 / 49950)) := by
  refine ⟨c2_breakPoints, ?_⟩
  rw [probabilityOfProfit_one_boundary c2ps 1 1 0 1 _ c2_breakPoints, if_neg]
  rw [c2_net]
  norm_num

/-- Witness strategy: a sold straddle at strike 1, premium `2/5` per leg. -/
def c3ps : List OptionPosition := [⟨.call, .sell, 1, 2 / 5, 1⟩, ⟨.put, .sell, 1, 2 / 5, 1⟩]

theorem c3_net (S : ℚ) : netPayoff c3ps S = 4 / 5 - max (S - 1) 0 - max (1 - S) 0 := by
  simp [netPayoff, c3ps, OptionPosition.payoff]
  ring

theorem c3_mask (i : ℕ) :
    positiveMask c3ps 1 i = decide (18981 < 199 * i ∧ 199 * i < 178821) := by
  rw [positiveMask, decide_eq_decide, c3_net]
  rw [show S_val 1 i = (999 + 199 * (i : ℚ)) / 99900 by rw [S_val]; push_cast; ring]
  set x : ℚ := (999 + 199 * (i : ℚ)) / 99900 with hx
  constructor
  · intro h
    have hb : 1 / 5 < x ∧ x < 9 / 5 := by
      rcases le_total x 1 with hc | hc
      · rw [max_eq_right (by linarith), max_eq_left (by linarith)] at h
        constructor <;> linarith
      · rw [max_eq_left (by linarith), max_eq_right (by linarith)] at h
        constructor <;> linarith
    constructor
    · have : (18981 : ℚ) < 199 * (i : ℚ) := by rw [hx] at hb; nlinarith [hb.1]
      exact_mod_cast this
    · have : (199 : ℚ) * (i : ℚ) < 178821 := by rw [hx] at hb; nlinarith [hb.2]
      exact_mod_cast this
  · rintro ⟨h1, h2⟩
    have hq1 : (18981 : ℚ) < 199 * (i : ℚ) := by exact_mod_cast h1
    have hq2 : (199 : ℚ) * (i : ℚ) < 178821 := by exact_mod_cast h2
    have hx1 : 1 / 5 < x := by rw [hx]; nlinarith
    have hx2 : x < 9 / 5 := by rw [hx]; nlinarith
    rcases le_total x 1 with hc | hc
    · rw [max_eq_right (by linarith), max_eq_left (by linarith)]
      linarith
    · rw [max_eq_left (by linarith), max_eq_right (by linarith)]
      linarith

theorem c3_breakIdx : breakIdx c3ps 1 = [96, 899] := by
  unfold breakIdx
  have hcongr : ∀ i ∈ List.range 1000,
      (decide (0 < i) && (positiveMask c3ps 1 i != positiveMask c3ps 1 (i - 1))) =
        (i == 96 || i == 899) := by
    intro i hi
    rw [c3_mask, c3_mask]
    rcases eq_or_ne i 96 with h96 | h96
    · subst h96; rfl
    rcases eq_or_ne i 899 with h899 | h899
    · subst h899; rfl
    have h1 : (i == 96) = false := by simp [h96]
    have h2 : (i == 899) = false := by simp [h899]
    rw [h1, h2, Bool.or_false]
    rcases Nat.eq_zero_or_pos i with hz | hp
    · subst hz; rfl
    · have h3 : decide (18981 < 199 * i ∧ 199 * i < 178821) =
          decide (18981 < 199 * (i - 1) ∧ 199 * (i - 1) < 178821) := by
        rw [decide_eq_decide]; omega
      rw [h3, bne_self_eq_false, Bool.and_false]
  rw [List.filter_congr hcongr]
  exact range_filter_beq_pair 96 899 (by norm_num) 1000 (by norm_num)

theorem c3_breakPoints : breakPoints c3ps 1 = [6701 / 33300, 1799 / 999] := by
  rw [breakPoints, c3_breakIdx, List.map_cons, List.map_cons, List.map_nil]
  norm_num [S_val]

/-- Witness for C3: the sold straddle flips sign twice, at grid indices 96 and
899; `probabilityOfProfit` is `Phi(z2) - Phi(z1)` for those two boundary
prices. -/
theorem probabilityOfProfit_two_boundary_witness :
    breakPoints c3ps 1 = [6701 / 33300, 1799 / 999] ∧
      probabilityOfProfit c3ps 1 1 0 1 =
        cumulativeNormalDistribution (zscore 1 1 0 1 (1799 / 999)) -
          cumulativeNormalDistribution (zscore 1 1 0 1 (6701 / 33300)) :=
  ⟨c3_breakPoints,
    probabilityOfProfit_two_boundary c3ps 1 1 0 1 (6701 / 33300) (1799 / 999) c3_breakPoints⟩

/-- Witness strategy: a sold put, strike 1, premium 2 — payoff everywhere
strictly positive on the grid. -/
def c4pos : List OptionPosition := [⟨.put, .sell, 1, 2, 1⟩]

/-- Witness strategy: a bought put, strike 1, premium 2 — payoff everywhere
strictly negative on the grid. -/
def c4neg : List OptionPosition := [⟨.put, .buy, 1, 2, 1⟩]

theorem c4pos_net (S : ℚ) : netPayoff c4pos S = 2 - max (1 - S) 0 := by
  simp [netPayoff, c4pos, OptionPosition.payoff]

theorem c4neg_net (S : ℚ) : netPayoff c4neg S = max (1 - S) 0 - 2 := by
  simp [netPayoff, c4neg, OptionPosition.payoff]

theorem S_val_lb (S0 : ℚ) (h : 1 / 200 ≤ S0) (i : ℕ) : 1 / 100 ≤ S_val S0 i := by
  unfold S_val
  have h1 : (0 : ℚ) ≤ (S0 * 2 - 1 / 100) * i := by
    have : (0 : ℚ) ≤ (i : ℚ) := Nat.cast_nonneg i
    nlinarith
  have h2 : (0 : ℚ) ≤ (S0 * 2 - 1 / 100) * i / 999 := by positivity
  linarith

/-- Witness for C4: both degenerate branches, on a strategy positive at every
sample and one positive at no sample. -/
theorem probabilityOfProfit_degenerate_witness :
    probabilityOfProfit c4pos 1 1 0 1 = 1 ∧ probabilityOfProfit c4neg 1 1 0 1 = 0 := by
  constructor
  · apply (probabilityOfProfit_degenerate c4pos 1 1 0 1).1
    intro i hi
    rw [c4pos_net]
    have h1 : 1 / 100 ≤ S_val 1 i := S_val_lb 1 (by norm_num) i
    have h2 : max (1 - S_val 1 i) 0 ≤ 99 / 100 :=
      max_le (by linarith) (by norm_num)
    linarith
  · apply (probabilityOfProfit_degenerate c4neg 1 1 0 1).2
    intro i hi
    rw [c4neg_net]
    have h1 : 1 / 100 ≤ S_val 1 i := S_val_lb 1 (by norm_num) i
    have h2 : max (1 - S_val 1 i) 0 ≤ 99 / 100 :=
      max_le (by linarith) (by norm_num)
    linarith

/-!
## Claims C6, C7: `riskRewardRatio`
-/

theorem base_le_foldl_max (l : List ℚ) : ∀ a : ℚ, a ≤ l.foldl max a := by
  induction l with
  | nil => intro a; simp
  | cons y t ih => intro a; rw [List.foldl_cons]; exact (le_max_left a y).trans (ih (max a y))

theorem mem_le_foldl_max (l : List ℚ) : ∀ (a x : ℚ), x ∈ l → x ≤ l.foldl max a := by
  induction l with
  | nil => intro a x h; simp at h
  | cons y t ih =>
    intro a x h
    rw [List.foldl_cons]
    rcases List.mem_cons.mp h with h | h
    · subst h; exact (le_max_right a x).trans (base_le_foldl_max t _)
    · exact ih _ x h

theorem foldl_max_le (l : List ℚ) : ∀ a c : ℚ, a ≤ c → (∀ x ∈ l, x ≤ c) →
    l.foldl max a ≤ c := by
  induction l with
  | nil => intro a c ha _; simpa using ha
  | cons y t ih =>
    intro a c ha hall
    rw [List.foldl_cons]
    exact ih _ c (max_le ha (hall y (List.mem_cons_self y t)))
      (fun x hx => hall x (List.mem_cons.mpr (Or.inr hx)))

theorem foldl_min_le_base (l : List ℚ) : ∀ a : ℚ, l.foldl min a ≤ a := by
  induction l with
  | nil => intro a; simp
  | cons y t ih => intro a; rw [List.foldl_cons]; exact (ih (min a y)).trans (min_le_left a y)

theorem foldl_min_le_mem (l : List ℚ) : ∀ (a x : ℚ), x ∈ l → l.foldl min a ≤ x := by
  induction l with
  | nil => intro a x h; simp at h
  | cons y t ih =>
    intro a x h
    rw [List.foldl_cons]
    rcases List.mem_cons.mp h with h | h
    · subst h; exact (foldl_min_le_base t _).trans (min_le_right a x)
    · exact ih _ x h

theorem le_foldl_min (l : List ℚ) : ∀ a c : ℚ, c ≤ a → (∀ x ∈ l, c ≤ x) →
    c ≤ l.foldl min a := by
  induction l with
  | nil => intro a c ha _; simpa using ha
  | cons y t ih =>
    intro a c ha hall
    rw [List.foldl_cons]
    exact ih _ c (le_min ha (hall y (List.mem_cons_self y t)))
      (fun x hx => hall x (List.mem_cons.mpr (Or.inr hx)))

theorem maxProfit_le {ps : List OptionPosition} {S0 c : ℚ}
    (h : ∀ i < 1000, netPayoff ps (S_val S0 i) ≤ c) : maxProfit ps S0 ≤ c := by
  unfold maxProfit
  apply foldl_max_le
  · exact h 0 (by norm_num)
  · intro x hx
    obtain ⟨i, hi, rfl⟩ := List.mem_map.mp hx
    exact h i (List.mem_range.mp hi)

theorem le_maxProfit {ps : List OptionPosition} {S0 : ℚ} (i : ℕ) (hi : i < 1000) :
    netPayoff ps (S_val S0 i) ≤ maxProfit ps S0 := by
  unfold maxProfit
  exact mem_le_foldl_max _ _ _ (List.mem_map.mpr ⟨i, List.mem_range.mpr hi, rfl⟩)

theorem le_maxLoss {ps : List OptionPosition} {S0 c : ℚ}
    (h : ∀ i < 1000, c ≤ netPayoff ps (S_val S0 i)) : c ≤ maxLoss ps S0 := by
  unfold maxLoss
  apply le_foldl_min
  · exact h 0 (by norm_num)
  · intro x hx
    obtain ⟨i, hi, rfl⟩ := List.mem_map.mp hx
    exact h i (List.mem_range.mp hi)

theorem maxLoss_le {ps : List OptionPosition} {S0 : ℚ} (i : ℕ) (hi : i < 1000) :
    maxLoss ps S0 ≤ netPayoff ps (S_val S0 i) := by
  unfold maxLoss
  exact foldl_min_le_mem _ _ _ (List.mem_map.mpr ⟨i, List.mem_range.mpr hi, rfl⟩)

theorem S_val_ub (S0 : ℚ) (h : 1 / 200 ≤ S0) (i : ℕ) (hi : i < 1000) :
    S_val S0 i ≤ S0 * 2 := by
  unfold S_val
  have hstep : (0 : ℚ) ≤ S0 * 2 - 1 / 100 := by linarith
  have hiq : (i : ℚ) ≤ 999 := by exact_mod_cast Nat.le_of_lt_succ hi
  have h1 : (S0 * 2 - 1 / 100) * i / 999 ≤ S0 * 2 - 1 / 100 := by
    rw [div_le_iff (by norm_num : (0 : ℚ) < 999)]
    nlinarith
  linarith

/-- Claim C6: when `maxProfit = 0`, `riskRewardRatio` returns `+Infinity` if
`maxLoss < 0` and `0` if `maxLoss = 0`; these come from the explicit guard,
so no division is attempted in this case. -/
theorem riskRewardRatio_zero_maxProfit (ps : List OptionPosition) (S0 T r sigma : ℚ)
    (hmax : maxProfit ps S0 = 0) :
    (maxLoss ps S0 < 0 → riskRewardRatio ps S0 T r sigma = ⊤) ∧
      (maxLoss ps S0 = 0 → riskRewardRatio ps S0 T r sigma = 0) := by
  constructor <;> intro h <;> rw [riskRewardRatio, if_pos hmax]
  · rw [if_pos h]
  · rw [if_neg (by rw [h]; exact lt_irrefl 0)]

/-- Witness strategy: a sold straddle at strike 1, zero premium — payoff
`-(|S - 1|)`, zero at the top grid point `S = 1` for `S0 = 1/2`. -/
def c6inf : List OptionPosition := [⟨.call, .sell, 1, 0, 1⟩, ⟨.put, .sell, 1, 0, 1⟩]

/-- Witness strategy: a sold far call, zero premium — payoff identically `0`
on the grid for `S0 = 1/2`. -/
def c6zero : List OptionPosition := [⟨.call, .sell, 5, 0, 1⟩]

theorem c6inf_net (S : ℚ) : netPayoff c6inf S = -max (S - 1) 0 - max (1 - S) 0 := by
  simp [netPayoff, c6inf, OptionPosition.payoff]
  ring

theorem c6zero_net (S : ℚ) : netPayoff c6zero S = -max (S - 5) 0 := by
  simp [netPayoff, c6zero, OptionPosition.payoff]

theorem c6inf_maxProfit : maxProfit c6inf (1 / 2) = 0 := by
  apply le_antisymm
  · apply maxProfit_le
    intro i hi
    rw [c6inf_net]
    have h1 : (0 : ℚ) ≤ max (S_val (1 / 2) i - 1) 0 := le_max_right _ _
    have h2 : (0 : ℚ) ≤ max (1 - S_val (1 / 2) i) 0 := le_max_right _ _
    linarith
  · have h999 : S_val (1 / 2) 999 = 1 := by norm_num [S_val]
    have := @le_maxProfit c6inf (1 / 2) 999 (by norm_num)
    rw [c6inf_net, h999] at this
    simpa using this

theorem c6inf_maxLoss : maxLoss c6inf (1 / 2) < 0 := by
  have h0 : S_val (1 / 2) 0 = 1 / 100 := S_val_zero _
  have := @maxLoss_le c6inf (1 / 2) 0 (by norm_num)
  rw [c6inf_net, h0] at this
  have hm1 : max ((1 : ℚ) / 100 - 1) 0 = 0 := max_eq_right (by norm_num)
  have hm2 : max (1 - (1 : ℚ) / 100) 0 = 1 - 1 / 100 := max_eq_left (by norm_num)
  rw [hm1, hm2] at this
  linarith

theorem c6zero_payoff (i : ℕ) (hi : i < 1000) : netPayoff c6zero (S_val (1 / 2) i) = 0 := by
  rw [c6zero_net]
  have hub : S_val (1 / 2) i ≤ 1 := by
    have := S_val_ub (1 / 2) (by norm_num) i hi
    linarith
  rw [max_eq_right (by linarith)]
  ring

theorem c6zero_maxProfit : maxProfit c6zero (1 / 2) = 0 := by
  apply le_antisymm
  · exact maxProfit_le fun i hi => le_of_eq (c6zero_payoff i hi)
  · have := @le_maxProfit c6zero (1 / 2) 0 (by norm_num)
    rwa [c6zero_payoff 0 (by norm_num)] at this

theorem c6zero_maxLoss : maxLoss c6zero (1 / 2) = 0 := by
  apply le_antisymm
  · have := @maxLoss_le c6zero (1 / 2) 0 (by norm_num)
    rwa [c6zero_payoff 0 (by norm_num)] at this
  · exact le_maxLoss fun i hi => ge_of_eq (c6zero_payoff i hi)

/-- Witness for C6: both zero-max-profit branches hit on concrete strategies. -/
theorem riskRewardRatio_zero_maxProfit_witness :
    riskRewardRatio c6inf (1 / 2) 1 0 1 = ⊤ ∧ riskRewardRatio c6zero (1 / 2) 1 0 1 = 0 :=
  ⟨(riskRewardRatio_zero_maxProfit c6inf (1 / 2) 1 0 1 c6inf_maxProfit).1 c6inf_maxLoss,
    (riskRewardRatio_zero_maxProfit c6zero (1 / 2) 1 0 1 c6zero_maxProfit).2 c6zero_maxLoss⟩

/-- Witness strategy for the variant disagreement: one bought call, strike 1,
premium `1/4`, `S0 = 1`; `maxProfit = 3/4`, `maxLoss = -1/4`. -/
def c7ps : List OptionPosition := [⟨.call, .buy, 1, 1 / 4, 1⟩]

theorem c7_net (S : ℚ) : netPayoff c7ps S = max (S - 1) 0 - 1 / 4 := by
  simp [netPayoff, c7ps, OptionPosition.payoff]

theorem c7_maxProfit : maxProfit c7ps 1 = 3 / 4 := by
  apply le_antisymm
  · apply maxProfit_le
    intro i hi
    rw [c7_net]
    have hub : S_val 1 i ≤ 2 := by
      have := S_val_ub 1 (by norm_num) i hi
      linarith
    have : max (S_val 1 i - 1) 0 ≤ 1 := max_le (by linarith) (by norm_num)
    linarith
  · have h999 : S_val 1 999 = 2 := by norm_num [S_val]
    have := @le_maxProfit c7ps 1 999 (by norm_num)
    rw [c7_net, h999] at this
    have hm : max ((2 : ℚ) - 1) 0 = 2 - 1 := max_eq_left (by norm_num)
    rw [hm] at this
    linarith

theorem c7_maxLoss : maxLoss c7ps 1 = -(1 / 4) := by
  apply le_antisymm
  · have h0 : S_val 1 0 = 1 / 100 := S_val_zero _
    have := @maxLoss_le c7ps 1 0 (by norm_num)
    rw [c7_net, h0] at this
    have hm : max ((1 : ℚ) / 100 - 1) 0 = 0 := max_eq_right (by norm_num)
    rw [hm] at this
    linarith
  · apply le_maxLoss
    intro i hi
    rw [c7_net]
    have : (0 : ℚ) ≤ max (S_val 1 i - 1) 0 := le_max_right _ _
    linarith

/-- Claim C7: with nonzero `maxProfit` (and nonzero `maxLoss`), the
`script.js` variant returns `|maxLoss| / maxProfit` while the
`optionCalculations.ts` / `optionStrategy.js` variant returns
`|maxProfit / maxLoss|`; on the concrete bought call `c7ps` the two variants
disagree (`3` versus `1/3`). -/
theorem riskRewardRatio_variants_disagree :
    (∀ (ps : List OptionPosition) (S0 T r sigma : ℚ),
        maxProfit ps S0 ≠ 0 → maxLoss ps S0 ≠ 0 →
        riskRewardRatio ps S0 T r sigma =
            ((|maxProfit ps S0 / maxLoss ps S0| : ℚ) : WithTop ℚ) ∧
          riskRewardRatioScript ps S0 T r sigma =
            ((|maxLoss ps S0| / maxProfit ps S0 : ℚ) : WithTop ℚ)) ∧
      riskRewardRatio c7ps 1 1 0 1 ≠ riskRewardRatioScript c7ps 1 1 0 1 := by
  constructor
  · intro ps S0 T r sigma hmax hloss
    constructor
    · rw [riskRewardRatio, if_neg hmax, absDivJS, if_neg hloss]
    · rw [riskRewardRatioScript, if_neg hmax]
  · have hts : riskRewardRatio c7ps 1 1 0 1 = ((3 : ℚ) : WithTop ℚ) := by
      rw [riskRewardRatio, if_neg (by rw [c7_maxProfit]; norm_num), absDivJS,
        if_neg (by rw [c7_maxLoss]; norm_num), c7_maxProfit, c7_maxLoss]
      congr 1
      rw [show (3 : ℚ) / 4 / -(1 / 4) = -3 by norm_num, abs_neg,
        abs_of_nonneg (by norm_num : (0 : ℚ) ≤ 3)]
    have hsc : riskRewardRatioScript c7ps 1 1 0 1 = ((1 / 3 : ℚ) : WithTop ℚ) := by
      rw [riskRewardRatioScript, if_neg (by rw [c7_maxProfit]; norm_num),
        c7_maxProfit, c7_maxLoss]
      congr 1
      rw [abs_neg, abs_of_nonneg (by norm_num : (0 : ℚ) ≤ 1 / 4)]
      norm_num
    rw [hts, hsc]
    intro h
    have h2 : (3 : ℚ) = 1 / 3 := WithTop.coe_injective h
    norm_num at h2

/-- Witness for C7: the two formulas applied to `c7ps` give `3` and `1/3`. -/
theorem riskRewardRatio_variants_disagree_witness :
    riskRewardRatio c7ps 1 1 0 1 = ((3 : ℚ) : WithTop ℚ) ∧
      riskRewardRatioScript c7ps 1 1 0 1 = ((1 / 3 : ℚ) : WithTop ℚ) := by
  obtain ⟨h1, h2⟩ := riskRewardRatio_variants_disagree.1 c7ps 1 1 0 1
    (by rw [c7_maxProfit]; norm_num) (by rw [c7_maxLoss]; norm_num)
  constructor
  · rw [h1, c7_maxProfit, c7_maxLoss]
    congr 1
    rw [show (3 : ℚ) / 4 / -(1 / 4) = -3 by norm_num, abs_neg,
      abs_of_nonneg (by norm_num : (0 : ℚ) ≤ 3)]
  · rw [h2, c7_maxProfit, c7_maxLoss]
    congr 1
    rw [abs_neg, abs_of_nonneg (by norm_num : (0 : ℚ) ≤ 1 / 4)]
    norm_num

/-!
## Claim C8: the ranker
-/

theorem rankLE_trans (x y z : ResultRec) : rankLE x y → rankLE y z → rankLE x z := by
  unfold rankLE
  simp only [decide_eq_true_eq]
  exact fun h1 h2 => h2.trans h1

theorem rankLE_total (x y : ResultRec) : rankLE x y || rankLE y x := by
  unfold rankLE
  rcases le_total x.riskReward y.riskReward with h | h
  · simp [h]
  · simp [h]

/-- Claim C8: the ranker returns a permutation of its input (the records
themselves are untouched), sorted by risk/reward ratio in descending order,
and any two records with equal ratio (`⊤ = Infinity` included) keep their
original relative order. -/
theorem rank_spec (rs : List ResultRec) :
    (rank rs).Perm rs ∧
      (rank rs).Pairwise (fun x y => y.riskReward ≤ x.riskReward) ∧
      ∀ x y : ResultRec, [x, y].Sublist rs → x.riskReward = y.riskReward →
        [x, y].Sublist (rank rs) := by
  refine ⟨List.mergeSort_perm rs rankLE, ?_, ?_⟩
  · have h := List.sorted_mergeSort rankLE_trans rankLE_total rs
    exact h.imp fun hb => by
      rw [rankLE, decide_eq_true_eq] at hb
      exact hb
  · intro x y hsub heq
    exact List.pair_sublist_mergeSort rankLE_trans rankLE_total
      (by rw [rankLE, heq]; simp) hsub

/-- Two equal-ratio records used by the ranker witness. -/
def c8a : ResultRec := ⟨((5 : ℚ) : WithTop ℚ), 0, (1, 2, 1, 2)⟩

/-- A second record with the same ratio but different indices. -/
def c8b : ResultRec := ⟨((5 : ℚ) : WithTop ℚ), 0, (1, 3, 1, 2)⟩

/-- Witness for C8: a tied pair stays in input order through the ranker. -/
theorem rank_spec_witness : [c8a, c8b].Sublist (rank [c8a, c8b]) :=
  (rank_spec [c8a, c8b]).2.2 c8a c8b (List.Sublist.refl _) rfl

/-!
## Claims C9, C10: the combination generator
-/

theorem mem_tuples {n i j k l : ℕ} (h : (i, j, k, l) ∈ tuples n) :
    1 ≤ i ∧ i ≤ n ∧ 1 ≤ j ∧ j + i ≤ n ∧ 1 ≤ k ∧ k ≤ n ∧ 1 ≤ l ∧ l + k ≤ n := by
  unfold tuples at h
  rw [List.mem_flatMap] at h
  obtain ⟨i', hi', h⟩ := h
  rw [List.mem_flatMap] at h
  obtain ⟨j', hj', h⟩ := h
  rw [List.mem_flatMap] at h
  obtain ⟨k', hk', h⟩ := h
  rw [List.mem_map] at h
  obtain ⟨l', hl', heq⟩ := h
  obtain ⟨hie, hje, hke, hle⟩ : i' = i ∧ j' = j ∧ k' = k ∧ l' = l := by
    simpa [Prod.ext_iff] using heq
  rw [hje, hie] at hj'
  rw [hie] at hi'
  rw [hle, hke] at hl'
  rw [hke] at hk'
  have hI : 1 ≤ i ∧ i ≤ n := by
    rw [List.mem_range'] at hi'
    obtain ⟨a, ha, rfl⟩ := hi'
    omega
  have hJ : 1 ≤ j ∧ j + i ≤ n := by
    rw [List.mem_range'] at hj'
    obtain ⟨a, ha, rfl⟩ := hj'
    omega
  have hK : 1 ≤ k ∧ k ≤ n := by
    rw [List.mem_range'] at hk'
    obtain ⟨a, ha, rfl⟩ := hk'
    omega
  have hL : 1 ≤ l ∧ l + k ≤ n := by
    rw [List.mem_range'] at hl'
    obtain ⟨a, ha, rfl⟩ := hl'
    omega
  exact ⟨hI.1, hI.2, hJ.1, hJ.2, hK.1, hK.2, hL.1, hL.2⟩

theorem genRecord_eq_some {m : List (List (Option ℚ))} {i j k l : ℕ} {rec : ResultRec}
    (h : genRecord m (i, j, k, l) = some rec) :
    (cell m 5 i).isSome = true ∧ (cell m 5 (j + i)).isSome = true ∧
      (cell m 7 k).isSome = true ∧ (cell m 7 (l + k)).isSome = true ∧
      rec.indices = (i, j + i, k, l + k) := by
  rcases hca : cell m 5 i with _ | ca <;>
    rcases hcb : cell m 5 (j + i) with _ | cb <;>
    rcases hpa : cell m 7 k with _ | pa <;>
    rcases hpb : cell m 7 (l + k) with _ | pb <;>
    rw [genRecord, hca, hcb, hpa, hpb] at h <;>
    simp only [Option.some.injEq, reduceCtorEq] at h
  exact ⟨rfl, rfl, rfl, rfl, by rw [← h]⟩

theorem genRecord_isSome {m : List (List (Option ℚ))} {i j k l : ℕ}
    (h1 : (cell m 5 i).isSome = true) (h2 : (cell m 5 (j + i)).isSome = true)
    (h3 : (cell m 7 k).isSome = true) (h4 : (cell m 7 (l + k)).isSome = true) :
    ∃ rec : ResultRec, genRecord m (i, j, k, l) = some rec ∧
      rec.indices = (i, j + i, k, l + k) := by
  obtain ⟨ca, hca⟩ := Option.isSome_iff_exists.mp h1
  obtain ⟨cb, hcb⟩ := Option.isSome_iff_exists.mp h2
  obtain ⟨pa, hpa⟩ := Option.isSome_iff_exists.mp h3
  obtain ⟨pb, hpb⟩ := Option.isSome_iff_exists.mp h4
  simp only [genRecord, hca, hcb, hpa, hpb]
  exact ⟨_, rfl, rfl⟩

theorem mem_analyzeMatrix {m : List (List (Option ℚ))} {rec : ResultRec}
    (h : rec ∈ analyzeMatrix m) :
    ∃ i j k l, (i, j, k, l) ∈ tuples (maxRowsOf m) ∧
      (cell m 5 i).isSome = true ∧ (cell m 5 (j + i)).isSome = true ∧
      (cell m 7 k).isSome = true ∧ (cell m 7 (l + k)).isSome = true ∧
      rec.indices = (i, j + i, k, l + k) := by
  unfold analyzeMatrix at h
  rw [List.mem_filterMap] at h
  obtain ⟨t, ht, hf⟩ := h
  obtain ⟨i, j, k, l⟩ := t
  obtain ⟨h1, h2, h3, h4, h5⟩ := genRecord_eq_some hf
  exact ⟨i, j, k, l, ht, h1, h2, h3, h4, h5⟩

/-- Claim C9: if any of the four price cells of an enumerated tuple fails to
parse, no record with that tuple's leg indices is emitted, while every
enumerated tuple whose four price cells parse does get a record; the
enumeration itself always completes (the generator is a total function). -/
theorem analyzeMatrix_skips_malformed (m : List (List (Option ℚ))) (i j k l : ℕ)
    (ht : (i, j, k, l) ∈ tuples (maxRowsOf m)) :
    ((cell m 5 i = none ∨ cell m 5 (j + i) = none ∨
        cell m 7 k = none ∨ cell m 7 (l + k) = none) →
      ∀ rec ∈ analyzeMatrix m, rec.indices ≠ (i, j + i, k, l + k)) ∧
      ((cell m 5 i).isSome = true → (cell m 5 (j + i)).isSome = true →
        (cell m 7 k).isSome = true → (cell m 7 (l + k)).isSome = true →
        ∃ rec ∈ analyzeMatrix m, rec.indices = (i, j + i, k, l + k)) := by
  constructor
  · intro hbad rec hrec heq
    obtain ⟨i', j', k', l', ht', hca, hcb, hpa, hpb, hidx⟩ := mem_analyzeMatrix hrec
    rw [heq] at hidx
    obtain ⟨hi, hj, hk, hl⟩ : i = i' ∧ j + i = j' + i' ∧ k = k' ∧ l + k = l' + k' := by
      simpa [Prod.ext_iff] using hidx
    subst hi
    have hj' : j' = j := by omega
    subst hj'
    have hk' : k' = k := by omega
    subst hk'
    have hl' : l' = l := by omega
    subst hl'
    rcases hbad with hb | hb | hb | hb
    · rw [hb] at hca; simp at hca
    · rw [hb] at hcb; simp at hcb
    · rw [hb] at hpa; simp at hpa
    · rw [hb] at hpb; simp at hpb
  · intro h1 h2 h3 h4
    obtain ⟨rec, hrec, hidx⟩ := genRecord_isSome h1 h2 h3 h4
    exact ⟨rec, List.mem_filterMap.mpr ⟨(i, j, k, l), ht, hrec⟩, hidx⟩

/-- The chain table used by the generator witnesses: three chain entries
(`maxRows = 3`); the call-price cell at index 2 is malformed, every other
referenced price cell parses. -/
def wMat : List (List (Option ℚ)) :=
  [[some 0, some 0, some 0],
    [], [], [], [],
    [none, some 10, none, some 4],
    [none, some 100, some 110, some 120],
    [none, some 5, some 6, some 7]]

/-- Witness for C9: the tuple whose call-bid cell is the malformed index 2
yields no record, while a tuple with all four prices well-formed yields one. -/
theorem analyzeMatrix_skips_malformed_witness :
    (∀ rec ∈ analyzeMatrix wMat, rec.indices ≠ (1, 2, 1, 2)) ∧
      ∃ rec ∈ analyzeMatrix wMat, rec.indices = (1, 3, 1, 2) :=
  ⟨(analyzeMatrix_skips_malformed wMat 1 1 1 1 (by decide)).1 (Or.inr (Or.inl rfl)),
    (analyzeMatrix_skips_malformed wMat 1 2 1 1 (by decide)).2 rfl rfl rfl rfl⟩

/-- Claim C10: every emitted record's leg indices satisfy the strict-ordering
invariant: the buy-call index `j+i` strictly exceeds the sell-call index `i`
and the buy-put index `l+k` strictly exceeds the sell-put index `k`, so the
two legs of each pair never come from the same chain entry. -/
theorem analyzeMatrix_leg_ordering (m : List (List (Option ℚ))) (q : ℕ × ℕ × ℕ × ℕ)
    (hq : q ∈ (analyzeMatrix m).map ResultRec.indices) :
    q.1 < q.2.1 ∧ q.2.2.1 < q.2.2.2 := by
  rw [List.mem_map] at hq
  obtain ⟨rec, hrec, rfl⟩ := hq
  obtain ⟨i, j, k, l, ht, _, _, _, _, hidx⟩ := mem_analyzeMatrix hrec
  have hb := mem_tuples ht
  rw [hidx]
  refine ⟨?_, ?_⟩
  · show i < j + i
    omega
  · show k < l + k
    omega

/-- Witness for C10: the record emitted for tuple `(1, 2, 1, 1)` has indices
`(1, 3, 1, 2)`, with `1 < 3` and `1 < 2`. -/
theorem analyzeMatrix_leg_ordering_witness :
    ((1 : ℕ), (3 : ℕ), (1 : ℕ), (2 : ℕ)).1 < ((1 : ℕ), (3 : ℕ), (1 : ℕ), (2 : ℕ)).2.1 ∧
      ((1 : ℕ), (3 : ℕ), (1 : ℕ), (2 : ℕ)).2.2.1 <
        ((1 : ℕ), (3 : ℕ), (1 : ℕ), (2 : ℕ)).2.2.2 :=
  analyzeMatrix_leg_ordering wMat (1, 3, 1, 2) (by decide)

/-!
## Claim C5: boundedness of `probabilityOfProfit`

The Abramowitz–Stegun polynomial is bounded by `[0, 1]` and monotone on
`[0, 1]`, which bounds `cumulativeNormalDistribution` in `[0, 1]` and makes
it monotone; the constant, one-boundary and two-boundary branches are then
bounded.
The trapezoid fallback, however, is not bounded by 1: for a sharply peaked
lognormal whose peak sits on an integration node the truncated trapezoid sum
exceeds 1.
-/

theorem polyAS_eq (t : ℝ) :
    polyAS t = a1 * t + a2 * t ^ 2 + a3 * t ^ 3 + a4 * t ^ 4 + a5 * t ^ 5 := by
  unfold polyAS
  ring

theorem qAS_nonneg {t : ℝ} (ht : 0 ≤ t) (ht1 : t ≤ 1) :
    0 ≤ a1 + a2 * t + a3 * t ^ 2 + a4 * t ^ 3 + a5 * t ^ 4 := by
  unfold a1 a2 a3 a4 a5
  nlinarith [sq_nonneg (t * t - 0.6845 * t), sq_nonneg (t - 0.1539),
    mul_nonneg (mul_nonneg ht ht) (sub_nonneg.mpr ht1)]

theorem polyAS_nonneg {t : ℝ} (ht : 0 ≤ t) (ht1 : t ≤ 1) : 0 ≤ polyAS t := by
  rw [polyAS_eq]
  have h := qAS_nonneg ht ht1
  have heq : a1 * t + a2 * t ^ 2 + a3 * t ^ 3 + a4 * t ^ 4 + a5 * t ^ 5 =
      t * (a1 + a2 * t + a3 * t ^ 2 + a4 * t ^ 3 + a5 * t ^ 4) := by ring
  rw [heq]
  exact mul_nonneg ht h

theorem polyAS_le_one {t : ℝ} (ht : 0 ≤ t) (ht1 : t ≤ 1) : polyAS t ≤ 1 := by
  rw [polyAS_eq]
  have hu : 0 ≤ 1 + 0.745170408 * t + 1.029667144 * t ^ 2 - 0.391746597 * t ^ 3 +
      1.061405430 * t ^ 4 := by
    nlinarith [mul_nonneg (mul_nonneg ht ht) (sub_nonneg.mpr ht1), sq_nonneg t,
      mul_nonneg ht ht, sq_nonneg (t * t)]
  unfold a1 a2 a3 a4 a5
  nlinarith [mul_nonneg (sub_nonneg.mpr ht1) hu, pow_nonneg ht 5]

theorem hasDerivAt_polyAS (t : ℝ) :
    HasDerivAt polyAS
      (a1 + 2 * a2 * t + 3 * a3 * t ^ 2 + 4 * a4 * t ^ 3 + 5 * a5 * t ^ 4) t := by
  have h : HasDerivAt (fun u : ℝ => a1 * u + a2 * u ^ 2 + a3 * u ^ 3 + a4 * u ^ 4 + a5 * u ^ 5)
      (a1 + 2 * a2 * t + 3 * a3 * t ^ 2 + 4 * a4 * t ^ 3 + 5 * a5 * t ^ 4) t := by
    have h1 : HasDerivAt (fun u : ℝ => a1 * u) (a1 * 1) t := (hasDerivAt_id t).const_mul a1
    have h2 : HasDerivAt (fun u : ℝ => a2 * u ^ 2) (a2 * (2 * t ^ 1)) t :=
      (hasDerivAt_pow 2 t).const_mul a2
    have h3 : HasDerivAt (fun u : ℝ => a3 * u ^ 3) (a3 * (3 * t ^ 2)) t :=
      (hasDerivAt_pow 3 t).const_mul a3
    have h4 : HasDerivAt (fun u : ℝ => a4 * u ^ 4) (a4 * (4 * t ^ 3)) t :=
      (hasDerivAt_pow 4 t).const_mul a4
    have h5 : HasDerivAt (fun u : ℝ => a5 * u ^ 5) (a5 * (5 * t ^ 4)) t :=
      (hasDerivAt_pow 5 t).const_mul a5
    have := (((h1.add h2).add h3).add h4).add h5
    convert this using 1
    ring
  have heq : (fun u : ℝ => a1 * u + a2 * u ^ 2 + a3 * u ^ 3 + a4 * u ^ 4 + a5 * u ^ 5) =
      polyAS := by
    funext u
    rw [polyAS_eq]
  rw [heq] at h
  exact h

theorem derivAS_nonneg {t : ℝ} (ht : 0 ≤ t) (ht1 : t ≤ 1) :
    0 ≤ a1 + 2 * a2 * t + 3 * a3 * t ^ 2 + 4 * a4 * t ^ 3 + 5 * a5 * t ^ 4 := by
  unfold a1 a2 a3 a4 a5
  nlinarith [sq_nonneg (t * t - 0.5476 * t), sq_nonneg (t - 0.1064),
    mul_nonneg (mul_nonneg ht ht) (sub_nonneg.mpr ht1)]

theorem polyAS_monotoneOn : MonotoneOn polyAS (Set.Icc (0 : ℝ) 1) := by
  apply monotoneOn_of_deriv_nonneg (convex_Icc 0 1)
  · exact fun x _ => (hasDerivAt_polyAS x).continuousAt.continuousWithinAt
  · exact fun x _ => (hasDerivAt_polyAS x).differentiableAt.differentiableWithinAt
  · intro x hx
    rw [interior_Icc] at hx
    rw [(hasDerivAt_polyAS x).deriv]
    exact derivAS_nonneg hx.1.le hx.2.le

/-- The decaying factor `polyAS(1/(1 + p*w)) * exp(-w^2)` of the
Abramowitz–Stegun formula, as a function of the scaled argument `w = |x|/√2`. -/
noncomputable def gAS (w : ℝ) : ℝ :=
  polyAS (1 / (1 + pAS * w)) * Real.exp (-(w * w))

theorem tAS_mem {w : ℝ} (hw : 0 ≤ w) :
    0 < 1 / (1 + pAS * w) ∧ 1 / (1 + pAS * w) ≤ 1 := by
  have hp : (0 : ℝ) < pAS := by unfold pAS; norm_num
  have hd : (1 : ℝ) ≤ 1 + pAS * w := by nlinarith
  constructor
  · positivity
  · rw [div_le_one (by linarith)]
    linarith

theorem gAS_nonneg {w : ℝ} (hw : 0 ≤ w) : 0 ≤ gAS w := by
  obtain ⟨h1, h2⟩ := tAS_mem hw
  exact mul_nonneg (polyAS_nonneg h1.le h2) (Real.exp_nonneg _)

theorem gAS_le_one {w : ℝ} (hw : 0 ≤ w) : gAS w ≤ 1 := by
  obtain ⟨h1, h2⟩ := tAS_mem hw
  have hpoly := polyAS_le_one h1.le h2
  have hpoly0 := polyAS_nonneg h1.le h2
  have hexp : Real.exp (-(w * w)) ≤ 1 := by
    rw [Real.exp_le_one_iff]
    nlinarith
  unfold gAS
  exact le_trans (mul_le_mul hpoly hexp (Real.exp_nonneg _) zero_le_one) (by norm_num)

theorem gAS_antitone {w1 w2 : ℝ} (h0 : 0 ≤ w1) (h12 : w1 ≤ w2) : gAS w2 ≤ gAS w1 := by
  unfold gAS
  have hw2 : (0 : ℝ) ≤ w2 := h0.trans h12
  obtain ⟨ht1pos, ht1le⟩ := tAS_mem h0
  obtain ⟨ht2pos, ht2le⟩ := tAS_mem hw2
  have hp : (0 : ℝ) < pAS := by unfold pAS; norm_num
  have hmono : polyAS (1 / (1 + pAS * w2)) ≤ polyAS (1 / (1 + pAS * w1)) := by
    apply polyAS_monotoneOn ⟨ht2pos.le, ht2le⟩ ⟨ht1pos.le, ht1le⟩
    apply one_div_le_one_div_of_le (by nlinarith)
    nlinarith
  have hexp : Real.exp (-(w2 * w2)) ≤ Real.exp (-(w1 * w1)) := by
    rw [Real.exp_le_exp]
    nlinarith
  have hpoly0 := polyAS_nonneg ht2pos.le ht2le
  exact mul_le_mul hmono hexp (Real.exp_nonneg _) (polyAS_nonneg ht1pos.le ht1le)

theorem cnd_eq (x : ℝ) :
    cumulativeNormalDistribution x =
      if x < 0 then 0.5 * gAS (|x| / Real.sqrt 2)
      else 1 - 0.5 * gAS (|x| / Real.sqrt 2) := by
  unfold cumulativeNormalDistribution gAS
  by_cases h : x < 0
  · rw [if_pos h, if_pos h]
    ring
  · rw [if_neg h, if_neg h]
    ring

theorem cnd_nonneg (x : ℝ) : 0 ≤ cumulativeNormalDistribution x := by
  rw [cnd_eq]
  have hw : (0 : ℝ) ≤ |x| / Real.sqrt 2 := by positivity
  have h0 := gAS_nonneg hw
  have h1 := gAS_le_one hw
  by_cases h : x < 0
  · rw [if_pos h]; linarith
  · rw [if_neg h]; linarith

theorem cnd_le_one (x : ℝ) : cumulativeNormalDistribution x ≤ 1 := by
  rw [cnd_eq]
  have hw : (0 : ℝ) ≤ |x| / Real.sqrt 2 := by positivity
  have h0 := gAS_nonneg hw
  have h1 := gAS_le_one hw
  by_cases h : x < 0
  · rw [if_pos h]; linarith
  · rw [if_neg h]; linarith

theorem cnd_mono {x1 x2 : ℝ} (h : x1 ≤ x2) :
    cumulativeNormalDistribution x1 ≤ cumulativeNormalDistribution x2 := by
  rw [cnd_eq, cnd_eq]
  have hs2 : (0 : ℝ) < Real.sqrt 2 := Real.sqrt_pos.mpr (by norm_num)
  rcases lt_or_le x1 0 with h1 | h1 <;> rcases lt_or_le x2 0 with h2 | h2
  · rw [if_pos h1, if_pos h2, abs_of_neg h1, abs_of_neg h2]
    have hd : -x2 / Real.sqrt 2 ≤ -x1 / Real.sqrt 2 := by
      gcongr
    have hg := gAS_antitone (div_nonneg (by linarith) hs2.le) hd
    linarith
  · rw [if_pos h1, if_neg (not_lt.mpr h2)]
    have hwa : (0 : ℝ) ≤ |x1| / Real.sqrt 2 := by positivity
    have hwb : (0 : ℝ) ≤ |x2| / Real.sqrt 2 := by positivity
    have := gAS_le_one hwa
    have := gAS_le_one hwb
    have := gAS_nonneg hwa
    have := gAS_nonneg hwb
    linarith
  · linarith
  · rw [if_neg (not_lt.mpr h1), if_neg (not_lt.mpr h2), abs_of_nonneg h1, abs_of_nonneg h2]
    have hd : x1 / Real.sqrt 2 ≤ x2 / Real.sqrt 2 := by
      gcongr
    have hg := gAS_antitone (div_nonneg h1 hs2.le) hd
    linarith

theorem zscore_mono {S0 T r sigma b1 b2 : ℚ} (hS0 : 0 < S0) (hT : 0 < T)
    (hs : 0 < sigma) (hb1 : 0 < b1) (hb : b1 ≤ b2) :
    zscore S0 T r sigma b1 ≤ zscore S0 T r sigma b2 := by
  unfold zscore
  have hd : (0 : ℝ) < (sigma : ℝ) * Real.sqrt (T : ℝ) := by
    apply mul_pos
    · exact_mod_cast hs
    · exact Real.sqrt_pos.mpr (by exact_mod_cast hT)
  have hlog : Real.log ((b1 : ℝ) / (S0 : ℝ)) ≤ Real.log ((b2 : ℝ) / (S0 : ℝ)) := by
    apply Real.log_le_log
    · apply div_pos
      · exact_mod_cast hb1
      · exact_mod_cast hS0
    · have hS0R : (0 : ℝ) < (S0 : ℝ) := by exact_mod_cast hS0
      have hbR : ((b1 : ℝ)) ≤ (b2 : ℝ) := by exact_mod_cast hb
      gcongr
  exact div_le_div_of_nonneg_right (by linarith) hd.le

theorem breakIdx_pairwise (ps : List OptionPosition) (S0 : ℚ) :
    (breakIdx ps S0).Pairwise (· < ·) := by
  apply List.Pairwise.sublist (List.filter_sublist _)
  rw [List.range_eq_range']
  exact List.pairwise_lt_range' 0 1000

/-- Claim C5 (amended): on the branches that do not fall back to trapezoidal
integration (no boundary with a constant sign, one boundary, or two
boundaries), and with a nondecreasing price grid (`S0 ≥ 0.005`), the result
lies in `[0, 1]`; the trapezoidal fallback itself is *not* bounded by 1
(see the counterexample `probabilityOfProfit_gt_one`). -/
theorem probabilityOfProfit_bounded (ps : List OptionPosition) (S0 T r sigma : ℚ)
    (hS0 : 1 / 200 ≤ S0) (hT : 0 < T) (hsigma : 0 < sigma)
    (hlen : (breakIdx ps S0).length ≤ 2) :
    0 ≤ probabilityOfProfit ps S0 T r sigma ∧ probabilityOfProfit ps S0 T r sigma ≤ 1 := by
  by_cases hany : (List.range 1000).any (positiveMask ps S0) = true
  case neg =>
    have h0 : probabilityOfProfit ps S0 T r sigma = 0 := by
      unfold probabilityOfProfit
      rw [if_pos hany]
    rw [h0]
    norm_num
  by_cases hall : (List.range 1000).all (positiveMask ps S0) = true
  case pos =>
    have h1 : probabilityOfProfit ps S0 T r sigma = 1 := by
      unfold probabilityOfProfit
      rw [if_neg (not_not_intro hany), if_pos hall]
    rw [h1]
    norm_num
  have hallf : (List.range 1000).all (positiveMask ps S0) = false := by
    cases hx : (List.range 1000).all (positiveMask ps S0) with
    | true => exact absurd hx hall
    | false => rfl
  have hne := breakIdx_nonempty_of_any_all hany hallf
  rcases hl : breakIdx ps S0 with _ | ⟨i1, t1⟩
  · exact absurd hl hne
  rcases t1 with _ | ⟨i2, t2⟩
  · have hbp : breakPoints ps S0 = [S_val S0 i1] := by
      rw [breakPoints, hl]
      rfl
    rw [pop_one_break T r sigma hbp]
    by_cases hpos : 0 < netPayoff ps (1 / 100)
    · rw [if_pos hpos]
      exact ⟨cnd_nonneg _, cnd_le_one _⟩
    · rw [if_neg hpos]
      constructor
      · linarith [cnd_le_one (zscore S0 T r sigma (S_val S0 i1))]
      · linarith [cnd_nonneg (zscore S0 T r sigma (S_val S0 i1))]
  rcases t2 with _ | ⟨i3, t3⟩
  · have hbp : breakPoints ps S0 = [S_val S0 i1, S_val S0 i2] := by
      rw [breakPoints, hl]
      rfl
    rw [pop_two_break T r sigma hbp]
    have hi12 : i1 < i2 := by
      have hp := breakIdx_pairwise ps S0
      rw [hl] at hp
      exact (List.pairwise_cons.mp hp).1 i2 (List.mem_cons_self i2 _)
    have hb12 : S_val S0 i1 ≤ S_val S0 i2 := S_val_mono S0 hS0 hi12.le
    have hb1pos : 0 < S_val S0 i1 := S_val_pos S0 hS0 i1
    have hz := @zscore_mono S0 T r sigma _ _ (by linarith : (0 : ℚ) < S0) hT hsigma
      hb1pos hb12
    have hc := cnd_mono hz
    constructor
    · linarith
    · linarith [cnd_nonneg (zscore S0 T r sigma (S_val S0 i1)),
        cnd_le_one (zscore S0 T r sigma (S_val S0 i2))]
  · rw [hl] at hlen
    simp at hlen

theorem c4pos_mask (j : ℕ) : positiveMask c4pos 1 j = true := by
  rw [positiveMask, decide_eq_true_eq, c4pos_net]
  have h1 : 1 / 100 ≤ S_val 1 j := S_val_lb 1 (by norm_num) j
  have h2 : max (1 - S_val 1 j) 0 ≤ 99 / 100 := max_le (by linarith) (by norm_num)
  linarith

theorem c4pos_breakIdx : breakIdx c4pos 1 = [] := by
  unfold breakIdx
  rw [List.filter_eq_nil_iff]
  intro x hx
  rw [c4pos_mask, c4pos_mask, bne_self_eq_false, Bool.and_false]
  exact Bool.noConfusion

/-- Witness for the amended C5: an everywhere-positive strategy has no
boundaries, and its probability of profit is inside `[0, 1]`. -/
theorem probabilityOfProfit_bounded_witness :
    0 ≤ probabilityOfProfit c4pos 1 1 0 1 ∧ probabilityOfProfit c4pos 1 1 0 1 ≤ 1 :=
  probabilityOfProfit_bounded c4pos 1 1 0 1 (by norm_num) (by norm_num) (by norm_num)
    (by rw [c4pos_breakIdx]; norm_num)

/-!
### Counterexample to C5: the trapezoid fallback exceeds 1

Strategy `c5ps` (buy put @0.02 for 1/225, buy 4 calls @`11/450`, sell
8 calls @`7/225`) has three sign changes on the grid for `S0 = 0.03`, so
`probabilityOfProfit` falls back to trapezoidal integration.  With
`sigma = 1/10000` the lognormal density at the integration node `S = 0.03`
is about `1.3e5`, and that single trapezoid term times the step `1/20000`
already exceeds 1.
-/

/-- The fallback-branch counterexample strategy. -/
def c5ps : List OptionPosition :=
  [⟨.put, .buy, 1 / 50, 1 / 225, 1⟩, ⟨.call, .buy, 11 / 450, 0, 4⟩,
    ⟨.call, .sell, 7 / 225, 0, 8⟩]

theorem c5_net (S : ℚ) :
    netPayoff c5ps S =
      max (1 / 50 - S) 0 - 1 / 225 + 4 * max (S - 11 / 450) 0 -
        8 * max (S - 7 / 225) 0 := by
  simp [netPayoff, c5ps, OptionPosition.payoff]
  ring

theorem c5_m110 : positiveMask c5ps (3 / 100) 110 = true := by
  rw [positiveMask, decide_eq_true_eq, c5_net,
    show S_val (3 / 100) 110 = 1549 / 99900 from by norm_num [S_val],
    max_eq_left (by norm_num), max_eq_right (by norm_num), max_eq_right (by norm_num)]
  norm_num

theorem c5_m111 : positiveMask c5ps (3 / 100) 111 = false := by
  rw [positiveMask, c5_net,
    show S_val (3 / 100) 111 = 1554 / 99900 from by norm_num [S_val],
    max_eq_left (by norm_num), max_eq_right (by norm_num), max_eq_right (by norm_num)]
  apply decide_eq_false
  norm_num

theorem c5_m310 : positiveMask c5ps (3 / 100) 310 = false := by
  rw [positiveMask, c5_net,
    show S_val (3 / 100) 310 = 2549 / 99900 from by norm_num [S_val],
    max_eq_right (by norm_num), max_eq_left (by norm_num), max_eq_right (by norm_num)]
  apply decide_eq_false
  norm_num

theorem c5_m311 : positiveMask c5ps (3 / 100) 311 = true := by
  rw [positiveMask, decide_eq_true_eq, c5_net,
    show S_val (3 / 100) 311 = 2554 / 99900 from by norm_num [S_val],
    max_eq_right (by norm_num), max_eq_left (by norm_num), max_eq_right (by norm_num)]
  norm_num

theorem c5_m532 : positiveMask c5ps (3 / 100) 532 = true := by
  rw [positiveMask, decide_eq_true_eq, c5_net,
    show S_val (3 / 100) 532 = 3659 / 99900 from by norm_num [S_val],
    max_eq_right (by norm_num), max_eq_left (by norm_num), max_eq_left (by norm_num)]
  norm_num

theorem c5_m533 : positiveMask c5ps (3 / 100) 533 = false := by
  rw [positiveMask, c5_net,
    show S_val (3 / 100) 533 = 3664 / 99900 from by norm_num [S_val],
    max_eq_right (by norm_num), max_eq_left (by norm_num), max_eq_left (by norm_num)]
  apply decide_eq_false
  norm_num

theorem c5_break111 : 111 ∈ breakIdx c5ps (3 / 100) := by
  apply mem_break_of_flip (by norm_num) (by norm_num)
  rw [show (111 : ℕ) - 1 = 110 from rfl, c5_m111, c5_m110]
  exact fun h => Bool.noConfusion h

theorem c5_break311 : 311 ∈ breakIdx c5ps (3 / 100) := by
  apply mem_break_of_flip (by norm_num) (by norm_num)
  rw [show (311 : ℕ) - 1 = 310 from rfl, c5_m311, c5_m310]
  exact fun h => Bool.noConfusion h

theorem c5_break533 : 533 ∈ breakIdx c5ps (3 / 100) := by
  apply mem_break_of_flip (by norm_num) (by norm_num)
  rw [show (533 : ℕ) - 1 = 532 from rfl, c5_m533, c5_m532]
  exact fun h => Bool.noConfusion h

theorem three_le_length_of_mem {l : List ℕ} {x y z : ℕ} (hx : x ∈ l) (hy : y ∈ l)
    (hz : z ∈ l) (hxy : x ≠ y) (hxz : x ≠ z) (hyz : y ≠ z) : 3 ≤ l.length := by
  have hsub : ({x, y, z} : Finset ℕ) ⊆ l.toFinset := by
    intro a ha
    rw [List.mem_toFinset]
    rcases Finset.mem_insert.mp ha with rfl | ha
    · exact hx
    rcases Finset.mem_insert.mp ha with rfl | ha
    · exact hy
    rw [Finset.mem_singleton] at ha
    subst ha
    exact hz
  have hcard : ({x, y, z} : Finset ℕ).card = 3 := by
    rw [Finset.card_insert_of_not_mem (by simp [hxy, hxz]),
      Finset.card_insert_of_not_mem (by simp [hyz]), Finset.card_singleton]
  calc 3 = ({x, y, z} : Finset ℕ).card := hcard.symm
    _ ≤ l.toFinset.card := Finset.card_le_card hsub
    _ ≤ l.length := List.toFinset_card_le l

theorem c5_pop_eq :
    probabilityOfProfit c5ps (3 / 100) 1 0 (1 / 10000) =
      numericalIntegration c5ps (3 / 100) 1 0 (1 / 10000) := by
  have hlen : 3 ≤ (breakPoints c5ps (3 / 100)).length := by
    rw [breakPoints, List.length_map]
    exact three_le_length_of_mem c5_break111 c5_break311 c5_break533
      (by norm_num) (by norm_num) (by norm_num)
  rcases hbp : breakPoints c5ps (3 / 100) with _ | ⟨b1, _ | ⟨b2, _ | ⟨b3, bs⟩⟩⟩
  · rw [hbp] at hlen; simp at hlen
  · rw [hbp] at hlen; simp at hlen
  · rw [hbp] at hlen; simp at hlen
  · exact pop_fallback 1 0 (1 / 10000) hbp

theorem payoffIndicator_nonneg (ps : List OptionPosition) (S : ℚ) :
    0 ≤ payoffIndicator ps S := by
  unfold payoffIndicator
  split <;> norm_num

theorem pdf_nonneg (S0 T r sigma S : ℚ) (hS : (0 : ℚ) ≤ S) (hsig : (0 : ℚ) ≤ sigma) :
    0 ≤ pdf_S_T S0 T r sigma S := by
  unfold pdf_S_T
  apply mul_nonneg
  · apply one_div_nonneg.mpr
    apply mul_nonneg (mul_nonneg ?_ ?_) (Real.sqrt_nonneg _)
    · exact_mod_cast hS
    · exact_mod_cast hsig
  · exact (Real.exp_pos _).le

theorem c5_pdf_lb : (55555 : ℝ) ≤ pdf_S_T (3 / 100) 1 0 (1 / 10000) (3 / 100) := by
  unfold pdf_S_T
  push_cast
  norm_num
  have hpipos : 0 < Real.sqrt Real.pi := Real.sqrt_pos.mpr Real.pi_pos
  have hs2pos : 0 < Real.sqrt 2 := Real.sqrt_pos.mpr (by norm_num)
  have hpi : Real.sqrt Real.pi ≤ 2 := by
    calc Real.sqrt Real.pi ≤ Real.sqrt 4 := Real.sqrt_le_sqrt Real.pi_le_four
      _ = 2 := by
          rw [show (4 : ℝ) = 2 ^ 2 by norm_num, Real.sqrt_sq (by norm_num : (0 : ℝ) ≤ 2)]
  have hs2 : Real.sqrt 2 ≤ 3 / 2 := by
    calc Real.sqrt 2 ≤ Real.sqrt (9 / 4) := Real.sqrt_le_sqrt (by norm_num)
      _ = 3 / 2 := by
          rw [show (9 / 4 : ℝ) = (3 / 2) ^ 2 by norm_num,
            Real.sqrt_sq (by norm_num : (0 : ℝ) ≤ 3 / 2)]
  have h1 : (1 / 2 : ℝ) ≤ (Real.sqrt Real.pi)⁻¹ := by
    rw [show (1 / 2 : ℝ) = 2⁻¹ by norm_num]
    simpa [one_div] using one_div_le_one_div_of_le hpipos hpi
  have h2 : (2 / 3 : ℝ) ≤ (Real.sqrt 2)⁻¹ := by
    rw [show (2 / 3 : ℝ) = (3 / 2 : ℝ)⁻¹ by norm_num]
    simpa [one_div] using one_div_le_one_div_of_le hs2pos hs2
  have hexp : (1 / 2 : ℝ) ≤ Real.exp (-(1 / 800000000)) := by
    have h := Real.add_one_le_exp (-(1 / 800000000) : ℝ)
    linarith
  have hA : (1 / 3 : ℝ) ≤ (Real.sqrt Real.pi)⁻¹ * (Real.sqrt 2)⁻¹ := by
    nlinarith
  have hB : (1 / 6 : ℝ) ≤
      (Real.sqrt Real.pi)⁻¹ * (Real.sqrt 2)⁻¹ * Real.exp (-(1 / 800000000)) := by
    nlinarith [Real.exp_pos (-(1 / 800000000) : ℝ)]
  nlinarith [hB]

/-- Counterexample to claim C5: valid market parameters (`S0 = 0.03 > 0`,
`T = 1 > 0`, `sigma = 1/10000 > 0`) on which `probabilityOfProfit` takes the
trapezoidal fallback branch and returns a value strictly greater than 1. -/
theorem probabilityOfProfit_gt_one :
    (0 : ℚ) < 3 / 100 ∧ (0 : ℚ) < 1 ∧ (0 : ℚ) < 1 / 10000 ∧
      1 < probabilityOfProfit c5ps (3 / 100) 1 0 (1 / 10000) := by
  refine ⟨by norm_num, by norm_num, by norm_num, ?_⟩
  rw [c5_pop_eq]
  simp only [numericalIntegration]
  have hstep : ((3 / 100 * 2 - 1 / 100 : ℚ) / 1000) = 1 / 20000 := by norm_num
  simp only [hstep]
  have hcast : ((1 / 20000 : ℚ) : ℝ) = 1 / 20000 := by norm_num
  rw [hcast]
  have hnn : ∀ i ∈ Finset.Ico (1 : ℕ) 1000,
      0 ≤ payoffIndicator c5ps (1 / 100 + (i : ℚ) * (1 / 20000)) *
        pdf_S_T (3 / 100) 1 0 (1 / 10000) (1 / 100 + (i : ℚ) * (1 / 20000)) := by
    intro i hi
    apply mul_nonneg (payoffIndicator_nonneg _ _)
    apply pdf_nonneg
    · positivity
    · norm_num
  have hmem : (400 : ℕ) ∈ Finset.Ico (1 : ℕ) 1000 := by decide
  have hsum : payoffIndicator c5ps (1 / 100 + ((400 : ℕ) : ℚ) * (1 / 20000)) *
      pdf_S_T (3 / 100) 1 0 (1 / 10000) (1 / 100 + ((400 : ℕ) : ℚ) * (1 / 20000)) ≤
      ∑ i ∈ Finset.Ico (1 : ℕ) 1000,
        payoffIndicator c5ps (1 / 100 + (i : ℚ) * (1 / 20000)) *
          pdf_S_T (3 / 100) 1 0 (1 / 10000) (1 / 100 + (i : ℚ) * (1 / 20000)) :=
    Finset.single_le_sum hnn hmem
  have h400 : (1 / 100 + ((400 : ℕ) : ℚ) * (1 / 20000)) = 3 / 100 := by
    push_cast
    norm_num
  rw [h400] at hsum
  have hind : payoffIndicator c5ps (3 / 100) = 1 := by
    rw [payoffIndicator, if_pos]
    rw [c5_net, max_eq_right (by norm_num), max_eq_left (by norm_num),
      max_eq_right (by norm_num)]
    norm_num
  rw [hind, one_mul] at hsum
  have hterm := le_trans c5_pdf_lb hsum
  have hhalf : (0 : ℝ) ≤ 0.5 *
      (payoffIndicator c5ps (1 / 100) * pdf_S_T (3 / 100) 1 0 (1 / 10000) (1 / 100) +
        payoffIndicator c5ps (3 / 100 * 2) *
          pdf_S_T (3 / 100) 1 0 (1 / 10000) (3 / 100 * 2)) := by
    apply mul_nonneg (by norm_num)
    apply add_nonneg <;>
      · apply mul_nonneg (payoffIndicator_nonneg _ _)
        apply pdf_nonneg <;> norm_num
  nlinarith [hterm, hhalf]

end Hegdmax
